import Mathlib

/-!
Shallow embedding of `mlagents/trainers/torch/encoders.py`.

Shape arithmetic (`conv_output_shape`, `pool_out_shape`) is embedded over `ℤ`
with the float `floor` of the Python code rendered as the exact floor `⌊·⌋` of
a rational division.  The `Normalizer` running statistics are embedded over `ℚ`
(exact field arithmetic, the idealization of the float tensors); a batch is a
list of sample vectors `Fin d → ℚ` (the list is the tensor's first axis).
`Normalizer.forward` needs a square root and is therefore stated over `ℝ`.
-/

/-- The `kernel_size` argument of `conv_output_shape` may be a single scalar or
a per-axis pair (`Union[int, Tuple[int, int]]` in the source). -/
inductive KernelSize where
  | scalar (k : ℤ)
  | pair (p : ℤ × ℤ)

/-- The normalization `if not isinstance(kernel_size, tuple): kernel_size =
(int(kernel_size), int(kernel_size))` performed by `conv_output_shape`. -/
def KernelSize.toPair : KernelSize → ℤ × ℤ
  | .scalar k => (k, k)
  | .pair p => p

/-- `conv_output_shape` from the source: per axis,
`floor(((size + 2*padding - dilation*(kernel-1) - 1) / stride) + 1)`. -/
def conv_output_shape (h_w : ℤ × ℤ) (kernel_size : KernelSize) (stride : ℤ)
    (padding : ℤ) (dilation : ℤ) : ℤ × ℤ :=
  let ks := kernel_size.toPair
  let h := ⌊(((h_w.1 : ℚ) + 2 * (padding : ℚ) - (dilation : ℚ) * ((ks.1 : ℚ) - 1) - 1) /
      (stride : ℚ)) + 1⌋
  let w := ⌊(((h_w.2 : ℚ) + 2 * (padding : ℚ) - (dilation : ℚ) * ((ks.2 : ℚ) - 1) - 1) /
      (stride : ℚ)) + 1⌋
  (h, w)

/-- `pool_out_shape` from the source: `(h_w[i] - kernel_size) // 2 + 1` per axis;
Python floor division `//` is `Int.fdiv`. -/
def pool_out_shape (h_w : ℤ × ℤ) (kernel_size : ℤ) : ℤ × ℤ :=
  (Int.fdiv (h_w.1 - kernel_size) 2 + 1, Int.fdiv (h_w.2 - kernel_size) 2 + 1)

/-- Shape-relevant state of `SimpleVisualEncoder`: the stored `h_size`
constructor argument and the precomputed `final_flat`. -/
structure SimpleVisualEncoder where
  h_size : ℤ
  final_flat : ℤ

/-- `SimpleVisualEncoder.__init__`: two chained conv shapes (kernel 8 stride 4,
then kernel 4 stride 2, default padding 0 and dilation 1), times 32 channels. -/
def SimpleVisualEncoder.make (height width _initial_channels output_size : ℤ) :
    SimpleVisualEncoder :=
  let conv_1_hw := conv_output_shape (height, width) (.scalar 8) 4 0 1
  let conv_2_hw := conv_output_shape conv_1_hw (.scalar 4) 2 0 1
  { h_size := output_size, final_flat := conv_2_hw.1 * conv_2_hw.2 * 32 }

/-- `SimpleVisualEncoder.output_size` returns `self.final_flat`. -/
def SimpleVisualEncoder.output_size (self : SimpleVisualEncoder) : ℤ :=
  self.final_flat

/-- Shape-relevant state of `NatureVisualEncoder`. -/
structure NatureVisualEncoder where
  h_size : ℤ
  final_flat : ℤ

/-- `NatureVisualEncoder.__init__`: three chained conv shapes (8/4, 4/2, 3/1),
times 64 channels. -/
def NatureVisualEncoder.make (height width _initial_channels output_size : ℤ) :
    NatureVisualEncoder :=
  let conv_1_hw := conv_output_shape (height, width) (.scalar 8) 4 0 1
  let conv_2_hw := conv_output_shape conv_1_hw (.scalar 4) 2 0 1
  let conv_3_hw := conv_output_shape conv_2_hw (.scalar 3) 1 0 1
  { h_size := output_size, final_flat := conv_3_hw.1 * conv_3_hw.2 * 64 }

/-- `NatureVisualEncoder.output_size` returns `self.final_flat`. -/
def NatureVisualEncoder.output_size (self : NatureVisualEncoder) : ℤ :=
  self.final_flat

/-- Shape-relevant state of `ResNetVisualEncoder`: the precomputed
`_output_size`. -/
structure ResNetVisualEncoder where
  output_size_val : ℤ

/-- `ResNetVisualEncoder.__init__`: for each entry of `n_channels = [16,32,32]`
the loop updates `height, width = pool_out_shape((height, width), 3)` (the convs
in the loop use kernel 3, stride 1, padding 1 and do not change the spatial
size); `_output_size = n_channels[-1] * height * width`. -/
def ResNetVisualEncoder.make (height width _initial_channels : ℤ) :
    ResNetVisualEncoder :=
  let n_channels : List ℤ := [16, 32, 32]
  let hw := n_channels.foldl (fun hw _channel => pool_out_shape hw 3) (height, width)
  { output_size_val := n_channels.getLastD 0 * hw.1 * hw.2 }

/-- `ResNetVisualEncoder.output_size` returns `self._output_size`. -/
def ResNetVisualEncoder.output_size (self : ResNetVisualEncoder) : ℤ :=
  self.output_size_val

/-- Shape semantics of `torch.nn.Conv2d` as used by the encoders: a tensor
shape is `(channels, height, width)`; the convolution fails (the tensor
provider raises) when the input channel count differs from the layer's
`in_channels` or when a computed spatial size is non-positive, and otherwise
yields `out_channels` with the `conv_output_shape` spatial sizes. -/
def conv2d_shape (in_channels out_channels : ℤ) (kernel_size : KernelSize)
    (stride padding dilation : ℤ) (input : ℤ × ℤ × ℤ) : Option (ℤ × ℤ × ℤ) :=
  if input.1 = in_channels then
    let hw := conv_output_shape (input.2.1, input.2.2) kernel_size stride padding dilation
    if 0 < hw.1 ∧ 0 < hw.2 then some (out_channels, hw.1, hw.2) else none
  else none

/-- Shape semantics of the elementwise `Swish` activation: shape preserved. -/
def swish_shape (input : ℤ × ℤ × ℤ) : Option (ℤ × ℤ × ℤ) := some input

/-- Shape semantics of exact (non-broadcast) tensor addition: fails unless the
two shapes coincide. -/
def add_shape (a b : ℤ × ℤ × ℤ) : Option (ℤ × ℤ × ℤ) :=
  if a = b then some a else none

/-- Shape semantics of `ResNetBlock.forward`: `input_tensor +
self.layers(input_tensor)` where `layers` is Swish → Conv2d(channel, channel,
3, 1, padding 1) → Swish → Conv2d(channel, channel, 3, 1, padding 1). -/
def ResNetBlock.forward_shape (channel : ℤ) (input_tensor : ℤ × ℤ × ℤ) :
    Option (ℤ × ℤ × ℤ) :=
  ((((swish_shape input_tensor).bind
        (conv2d_shape channel channel (.scalar 3) 1 1 1)).bind
      swish_shape).bind
    (conv2d_shape channel channel (.scalar 3) 1 1 1)).bind
    (add_shape input_tensor)

/-- State of `Normalizer`: the buffers `normalization_steps` (an integer
tensor, initialized to 1), `running_mean` and `running_variance` (vectors of
length `vec_obs_size`). -/
structure Normalizer (vec_obs_size : ℕ) where
  normalization_steps : ℕ
  running_mean : Fin vec_obs_size → ℚ
  running_variance : Fin vec_obs_size → ℚ

attribute [ext] Normalizer

/-- `Normalizer.__init__`: steps 1, mean zeros, variance ones. -/
def Normalizer.init (vec_obs_size : ℕ) : Normalizer vec_obs_size :=
  { normalization_steps := 1
    running_mean := fun _ => 0
    running_variance := fun _ => 1 }

/-- `torch.clamp(x, -5, 5)`-style clamping over `ℝ`. -/
noncomputable def clamp (x lo hi : ℝ) : ℝ := min (max x lo) hi

/-- `Normalizer.forward`: elementwise
`clamp((x - running_mean) / sqrt(running_variance / normalization_steps), -5, 5)`.
A batch is a list of sample vectors (the tensor's first axis); the subtraction
and division broadcast the per-coordinate statistics over the batch.  Stated
over `ℝ` because of the square root; the function reads the state and returns
only the normalized batch. -/
noncomputable def Normalizer.forward {d : ℕ} (nz : Normalizer d)
    (inputs : List (Fin d → ℚ)) : List (Fin d → ℝ) :=
  inputs.map fun x j =>
    clamp (((x j : ℝ) - (nz.running_mean j : ℝ)) /
        Real.sqrt ((nz.running_variance j : ℝ) / (nz.normalization_steps : ℝ)))
      (-5) 5

/-- `Normalizer.update`: the batched Welford update from the source,
```
steps_increment   = vector_input.size()[0]
total_new_steps   = normalization_steps + steps_increment
input_to_old_mean = vector_input - running_mean
new_mean          = running_mean + (input_to_old_mean / total_new_steps).sum(0)
input_to_new_mean = vector_input - new_mean
new_variance      = running_variance + (input_to_new_mean * input_to_old_mean).sum(0)
```
followed by overwriting the three buffers; the returned record is the
post-update state. -/
def Normalizer.update {d : ℕ} (nz : Normalizer d)
    (vector_input : List (Fin d → ℚ)) : Normalizer d :=
  let steps_increment : ℕ := vector_input.length
  let total_new_steps : ℕ := nz.normalization_steps + steps_increment
  let input_to_old_mean : List (Fin d → ℚ) :=
    vector_input.map fun x j => x j - nz.running_mean j
  let new_mean : Fin d → ℚ := fun j =>
    nz.running_mean j + (input_to_old_mean.map fun x => x j / (total_new_steps : ℚ)).sum
  let input_to_new_mean : List (Fin d → ℚ) :=
    vector_input.map fun x j => x j - new_mean j
  let new_variance : Fin d → ℚ := fun j =>
    nz.running_variance j +
      (List.zipWith (fun a b => a j * b j) input_to_new_mean input_to_old_mean).sum
  { normalization_steps := total_new_steps
    running_mean := new_mean
    running_variance := new_variance }

/-- A kernel-3, stride-1, padding-1, dilation-1 convolution preserves spatial
sizes. -/
lemma conv_output_shape_3_1_1 (h w : ℤ) :
    conv_output_shape (h, w) (.scalar 3) 1 1 1 = (h, w) := by
  have key : ∀ z : ℤ, ⌊(((z : ℚ) + 2 * ((1 : ℤ) : ℚ) -
      ((1 : ℤ) : ℚ) * (((3 : ℤ) : ℚ) - 1) - 1) / ((1 : ℤ) : ℚ)) + 1⌋ = z := by
    intro z
    have : (((z : ℚ) + 2 * ((1 : ℤ) : ℚ) - ((1 : ℤ) : ℚ) * (((3 : ℤ) : ℚ) - 1) - 1) /
        ((1 : ℤ) : ℚ)) + 1 = ((z : ℤ) : ℚ) := by push_cast; ring
    rw [this, Int.floor_intCast]
  simp only [conv_output_shape, KernelSize.toPair]
  exact Prod.ext (key h) (key w)

/-- C5: `convOutputSize` computes, for each of the two axes independently,
`floor(((size + 2*padding - dilation*(kernel-1) - 1) / stride) + 1)`; with input
`(84, 84)`, kernel `8`, stride `4` (padding `0`, dilation `1`) it returns
`(20, 20)`, and chaining it on `(20, 20)` with kernel `4`, stride `2` returns
`(9, 9)`. -/
theorem conv_output_shape_formula_and_84_chain :
    (∀ h w k s p dl : ℤ, conv_output_shape (h, w) (.scalar k) s p dl =
      (⌊(((h : ℚ) + 2 * (p : ℚ) - (dl : ℚ) * ((k : ℚ) - 1) - 1) / (s : ℚ)) + 1⌋,
       ⌊(((w : ℚ) + 2 * (p : ℚ) - (dl : ℚ) * ((k : ℚ) - 1) - 1) / (s : ℚ)) + 1⌋)) ∧
    conv_output_shape (84, 84) (.scalar 8) 4 0 1 = (20, 20) ∧
    conv_output_shape (20, 20) (.scalar 4) 2 0 1 = (9, 9) := by
  refine ⟨fun h w k s p dl => rfl, ?_, ?_⟩ <;>
    norm_num [conv_output_shape, KernelSize.toPair]

/-- C6 counterexample: contrary to the claim, `conv_output_shape` and
`pool_out_shape` do not fail when a computed axis size is non-positive; at the
explicit inputs `(1, 1)` they return the non-positive sizes `-1` and `0`. -/
theorem conv_pool_no_error_counterexample :
    conv_output_shape (1, 1) (.scalar 8) 4 0 1 = (-1, -1) ∧
    pool_out_shape (1, 1) 3 = (0, 0) ∧
    (conv_output_shape (1, 1) (.scalar 8) 4 0 1).1 ≤ 0 ∧
    (pool_out_shape (1, 1) 3).1 ≤ 0 := by
  refine ⟨?_, by decide, ?_, by decide⟩ <;>
    norm_num [conv_output_shape, KernelSize.toPair]

/-- C6 amended: `conv_output_shape` and `pool_out_shape` perform no validation:
they are total and always return the per-axis formula values, even when an axis
size comes out non-positive (no `ConfigurationError` is raised — no such check
exists in the code). -/
theorem conv_pool_total_no_validation :
    (∀ h w k s p dl : ℤ, conv_output_shape (h, w) (.scalar k) s p dl =
      (⌊(((h : ℚ) + 2 * (p : ℚ) - (dl : ℚ) * ((k : ℚ) - 1) - 1) / (s : ℚ)) + 1⌋,
       ⌊(((w : ℚ) + 2 * (p : ℚ) - (dl : ℚ) * ((k : ℚ) - 1) - 1) / (s : ℚ)) + 1⌋)) ∧
    (∀ h w k : ℤ, pool_out_shape (h, w) k =
      (Int.fdiv (h - k) 2 + 1, Int.fdiv (w - k) 2 + 1)) ∧
    conv_output_shape (1, 1) (.scalar 8) 4 0 1 = (-1, -1) ∧
    pool_out_shape (1, 1) 3 = (0, 0) := by
  refine ⟨fun h w k s p dl => rfl, fun h w k => rfl, ?_, by decide⟩
  norm_num [conv_output_shape, KernelSize.toPair]

/-- C7: `poolOutputSize` computes `floor((size - kernel) / 2) + 1` per axis
(stride fixed at 2), and `ResNetVisualEncoder` constructed with height = width
= 84 has `output_size() = 32 * 9 * 9 = 2592`, where `(9, 9)` results from three
rounds of `poolOutputSize` with kernel 3 starting from `(84, 84)`
(84 → 41 → 20 → 9). -/
theorem pool_out_shape_formula_and_resnet_output_size :
    (∀ h w k : ℤ, pool_out_shape (h, w) k =
      (Int.fdiv (h - k) 2 + 1, Int.fdiv (w - k) 2 + 1)) ∧
    pool_out_shape (84, 84) 3 = (41, 41) ∧
    pool_out_shape (41, 41) 3 = (20, 20) ∧
    pool_out_shape (20, 20) 3 = (9, 9) ∧
    (ResNetVisualEncoder.make 84 84 3).output_size = 32 * 9 * 9 ∧
    (ResNetVisualEncoder.make 84 84 3).output_size = 2592 := by
  exact ⟨fun h w k => rfl, by decide, by decide, by decide, by decide, by decide⟩

/-- C8: with height = width = 84, `SimpleVisualEncoder.output_size()` returns
`9*9*32 = 2592` (84 → 20 → 9) and `NatureVisualEncoder.output_size()` returns
`7*7*64 = 3136` (84 → 20 → 9 → 7), regardless of the `output_size` constructor
argument and the channel count. -/
theorem simple_nature_output_size_84 (initial_channels output_size : ℤ) :
    (SimpleVisualEncoder.make 84 84 initial_channels output_size).output_size = 9 * 9 * 32 ∧
    (SimpleVisualEncoder.make 84 84 initial_channels output_size).output_size = 2592 ∧
    (NatureVisualEncoder.make 84 84 initial_channels output_size).output_size = 7 * 7 * 64 ∧
    (NatureVisualEncoder.make 84 84 initial_channels output_size).output_size = 3136 := by
  have h1 : conv_output_shape (84, 84) (.scalar 8) 4 0 1 = (20, 20) := by
    norm_num [conv_output_shape, KernelSize.toPair]
  have h2 : conv_output_shape (20, 20) (.scalar 4) 2 0 1 = (9, 9) := by
    norm_num [conv_output_shape, KernelSize.toPair]
  have h3 : conv_output_shape (9, 9) (.scalar 3) 1 0 1 = (7, 7) := by
    norm_num [conv_output_shape, KernelSize.toPair]
  refine ⟨?_, ?_, ?_, ?_⟩ <;>
    simp [SimpleVisualEncoder.make, SimpleVisualEncoder.output_size,
      NatureVisualEncoder.make, NatureVisualEncoder.output_size, h1, h2, h3]

/-- C9: on a valid input (positive spatial sizes), `ResNetBlock.forward` fails
exactly when the input's channel count differs from the block's configured
channel count (a shape mismatch, surfaced as an error); for channel-consistent
inputs it succeeds and the output shape equals the input shape. -/
theorem resnet_block_forward_shape (channel c h w : ℤ)
    (hh : 1 ≤ h) (hw : 1 ≤ w) :
    ResNetBlock.forward_shape channel (c, h, w) =
      if c = channel then some (c, h, w) else none := by
  by_cases hc : c = channel
  · subst hc
    simp [ResNetBlock.forward_shape, swish_shape, conv2d_shape, add_shape,
      conv_output_shape_3_1_1, Option.bind, show (0 : ℤ) < h by omega,
      show (0 : ℤ) < w by omega]
  · simp [ResNetBlock.forward_shape, swish_shape, conv2d_shape, hc]

/-- C9 witness: at channel count 4 and a 5×5 input, a matching input keeps its
shape and a mismatched input (channels 3) fails. -/
theorem resnet_block_forward_shape_witness :
    ResNetBlock.forward_shape 4 (4, 5, 5) = some (4, 5, 5) ∧
    ResNetBlock.forward_shape 4 (3, 5, 5) = none := by
  constructor
  · have := resnet_block_forward_shape 4 4 5 5 (by norm_num) (by norm_num)
    simpa using this
  · have := resnet_block_forward_shape 4 3 5 5 (by norm_num) (by norm_num)
    simpa using this

/-- Elementwise product of two maps over the same list, as produced by
`input_to_new_mean * input_to_old_mean`. -/
lemma zipWith_map_same {α β γ : Type _} (h : β → β → γ) (f g : α → β) (l : List α) :
    List.zipWith h (l.map f) (l.map g) = l.map fun x => h (f x) (g x) := by
  induction l with
  | nil => rfl
  | cons a t ih => simp [ih]

lemma sum_map_div {α : Type _} (l : List α) (f : α → ℚ) (c : ℚ) :
    (l.map fun x => f x / c).sum = (l.map f).sum / c := by
  induction l with
  | nil => simp
  | cons a t ih => simp [ih, add_div]

lemma sum_map_sub_const {α : Type _} (l : List α) (f : α → ℚ) (c : ℚ) :
    (l.map fun x => f x - c).sum = (l.map f).sum - l.length * c := by
  induction l with
  | nil => simp
  | cons a t ih =>
    simp only [List.map_cons, List.sum_cons, List.length_cons, ih]
    push_cast
    ring

lemma sum_map_mul_expand {α : Type _} (l : List α) (f : α → ℚ) (a b : ℚ) :
    (l.map fun x => (f x - a) * (f x - b)).sum =
      (l.map fun x => f x ^ 2).sum - (a + b) * (l.map f).sum + l.length * (a * b) := by
  induction l with
  | nil => simp
  | cons x t ih =>
    simp only [List.map_cons, List.sum_cons, List.length_cons, ih]
    push_cast
    ring

lemma sum_map_sq_nonneg {α : Type _} (l : List α) (f : α → ℚ) :
    0 ≤ (l.map fun x => f x ^ 2).sum := by
  induction l with
  | nil => simp
  | cons a t ih =>
    simp only [List.map_cons, List.sum_cons]
    have := sq_nonneg (f a)
    linarith

/-- Cauchy–Schwarz for a list sum: `(∑ f)² ≤ n · ∑ f²`. -/
lemma sq_sum_le_length_mul_sum_sq {α : Type _} (l : List α) (f : α → ℚ) :
    (l.map f).sum ^ 2 ≤ l.length * (l.map fun x => f x ^ 2).sum := by
  induction l with
  | nil => simp
  | cons a t ih =>
    simp only [List.map_cons, List.sum_cons, List.length_cons]
    push_cast
    rcases Nat.eq_zero_or_pos t.length with h0 | hpos
    · have ht : t = [] := List.length_eq_zero.mp h0
      subst ht
      norm_num
    · have hn : (1 : ℚ) ≤ (t.length : ℚ) := by exact_mod_cast hpos
      have hQ := sum_map_sq_nonneg t f
      nlinarith [ih, hQ, hn, sq_nonneg ((t.length : ℚ) * f a - (t.map f).sum),
        sq_nonneg (f a)]

lemma Normalizer.update_steps {d : ℕ} (nz : Normalizer d) (l : List (Fin d → ℚ)) :
    (nz.update l).normalization_steps = nz.normalization_steps + l.length := rfl

lemma Normalizer.update_mean_def0 {d : ℕ} (nz : Normalizer d)
    (l : List (Fin d → ℚ)) (j : Fin d) :
    (nz.update l).running_mean j =
      nz.running_mean j +
        ((l.map fun x j' => x j' - nz.running_mean j').map fun x =>
          x j / ((nz.normalization_steps + l.length : ℕ) : ℚ)).sum := rfl

lemma Normalizer.update_var_def0 {d : ℕ} (nz : Normalizer d)
    (l : List (Fin d → ℚ)) (j : Fin d) :
    (nz.update l).running_variance j =
      nz.running_variance j +
        (List.zipWith (fun a b => a j * b j)
          (l.map fun x j' => x j' - (nz.update l).running_mean j')
          (l.map fun x j' => x j' - nz.running_mean j')).sum := rfl

lemma Normalizer.update_mean_def {d : ℕ} (nz : Normalizer d)
    (l : List (Fin d → ℚ)) (j : Fin d) :
    (nz.update l).running_mean j =
      nz.running_mean j +
        (l.map fun x => (x j - nz.running_mean j) /
          ((nz.normalization_steps + l.length : ℕ) : ℚ)).sum := by
  rw [Normalizer.update_mean_def0, List.map_map]
  rfl

lemma Normalizer.update_var_def {d : ℕ} (nz : Normalizer d)
    (l : List (Fin d → ℚ)) (j : Fin d) :
    (nz.update l).running_variance j =
      nz.running_variance j +
        (l.map fun x =>
          (x j - (nz.update l).running_mean j) * (x j - nz.running_mean j)).sum := by
  rw [Normalizer.update_var_def0,
    zipWith_map_same (fun a b => a j * b j)
      (fun x j' => x j' - (nz.update l).running_mean j')
      (fun x j' => x j' - nz.running_mean j') l]

/-- Closed form of the mean update:
`new_mean = mean + (S - n·mean)/T` with `S` the batch coordinate sum. -/
lemma Normalizer.update_mean_closed {d : ℕ} (nz : Normalizer d)
    (l : List (Fin d → ℚ)) (j : Fin d) :
    (nz.update l).running_mean j =
      nz.running_mean j +
        ((l.map fun x => x j).sum - l.length * nz.running_mean j) /
          ((nz.normalization_steps + l.length : ℕ) : ℚ) := by
  rw [Normalizer.update_mean_def,
    sum_map_div l (fun x => x j - nz.running_mean j)
      ((nz.normalization_steps + l.length : ℕ) : ℚ),
    sum_map_sub_const l (fun x => x j) (nz.running_mean j)]

/-- The weighted-sum invariant of the mean update:
`T · new_mean = stepCount · mean + S` (also in the degenerate all-empty case). -/
lemma Normalizer.update_mean_mul {d : ℕ} (nz : Normalizer d)
    (l : List (Fin d → ℚ)) (j : Fin d) :
    ((nz.normalization_steps + l.length : ℕ) : ℚ) * (nz.update l).running_mean j =
      (nz.normalization_steps : ℚ) * nz.running_mean j + (l.map fun x => x j).sum := by
  rcases Nat.eq_zero_or_pos (nz.normalization_steps + l.length) with h0 | hpos
  · have ht : nz.normalization_steps = 0 := by omega
    have hl : l = [] := List.length_eq_zero.mp (by omega)
    subst hl
    simp [ht]
  · have hT : ((nz.normalization_steps + l.length : ℕ) : ℚ) ≠ 0 :=
      Nat.cast_ne_zero.mpr hpos.ne'
    rw [Normalizer.update_mean_closed]
    push_cast at hT ⊢
    field_simp
    ring

/-- The second conserved quantity:
`new_variance + T·new_mean² = variance + stepCount·mean² + ∑ x²`. -/
lemma Normalizer.update_R {d : ℕ} (nz : Normalizer d)
    (l : List (Fin d → ℚ)) (j : Fin d) :
    (nz.update l).running_variance j +
        ((nz.normalization_steps + l.length : ℕ) : ℚ) * (nz.update l).running_mean j ^ 2 =
      nz.running_variance j + (nz.normalization_steps : ℚ) * nz.running_mean j ^ 2 +
        (l.map fun x => x j ^ 2).sum := by
  have hm := Normalizer.update_mean_mul nz l j
  rw [Normalizer.update_var_def nz l j,
    sum_map_mul_expand l (fun x => x j) ((nz.update l).running_mean j) (nz.running_mean j)]
  push_cast at hm ⊢
  linear_combination ((nz.update l).running_mean j + nz.running_mean j) * hm

/-- The quantity added to each `running_variance` entry by `update` is
nonnegative, so the entries never decrease. -/
lemma Normalizer.update_var_mono {d : ℕ} (nz : Normalizer d)
    (l : List (Fin d → ℚ)) (j : Fin d) :
    nz.running_variance j ≤ (nz.update l).running_variance j := by
  rcases List.eq_nil_or_concat l with hnil | _
  · subst hnil
    rw [Normalizer.update_var_def]
    simp
  · have hpos : 0 < l.length := by
      cases l with
      | nil => simp_all
      | cons a t => simp
    have hTpos : (0 : ℚ) < ((nz.normalization_steps + l.length : ℕ) : ℚ) := by
      exact_mod_cast Nat.lt_of_lt_of_le hpos (Nat.le_add_left _ _)
    set T : ℚ := ((nz.normalization_steps + l.length : ℕ) : ℚ) with hTdef
    have hM' : (nz.update l).running_mean j =
        nz.running_mean j + (l.map fun x => x j - nz.running_mean j).sum / T := by
      rw [Normalizer.update_mean_def,
        sum_map_div l (fun x => x j - nz.running_mean j) T]
    set Sg : ℚ := (l.map fun x => x j - nz.running_mean j).sum with hSgdef
    have hCS : Sg ^ 2 ≤ l.length * (l.map fun x => (x j - nz.running_mean j) ^ 2).sum :=
      sq_sum_le_length_mul_sum_sq l (fun x => x j - nz.running_mean j)
    set Qg : ℚ := (l.map fun x => (x j - nz.running_mean j) ^ 2).sum with hQgdef
    have hQg0 : 0 ≤ Qg := sum_map_sq_nonneg l (fun x => x j - nz.running_mean j)
    have hnT : (l.length : ℚ) ≤ T := by
      rw [hTdef]
      exact_mod_cast Nat.le_add_left _ _
    have key : (nz.update l).running_variance j = nz.running_variance j + (Qg - Sg ^ 2 / T) := by
      rw [Normalizer.update_var_def nz l j,
        sum_map_mul_expand l (fun x => x j) ((nz.update l).running_mean j) (nz.running_mean j),
        hM']
      have hS : (l.map fun x => x j).sum = Sg + l.length * nz.running_mean j := by
        rw [hSgdef, sum_map_sub_const l (fun x => x j) (nz.running_mean j)]
        ring
      have hQ : (l.map fun x => x j ^ 2).sum =
          Qg + 2 * nz.running_mean j * (l.map fun x => x j).sum -
            l.length * nz.running_mean j ^ 2 := by
        rw [hQgdef]
        have := sum_map_mul_expand l (fun x => x j) (nz.running_mean j) (nz.running_mean j)
        have hsq : (l.map fun x => (x j - nz.running_mean j) ^ 2).sum =
            (l.map fun x => (x j - nz.running_mean j) * (x j - nz.running_mean j)).sum := by
          congr 1
          refine List.map_congr_left fun x _ => ?_
          ring
        rw [hsq, this]
        ring
      rw [hQ, hS]
      field_simp
      ring
    have hfrac : Sg ^ 2 / T ≤ Qg := by
      rw [div_le_iff₀ hTpos]
      calc Sg ^ 2 ≤ (l.length : ℚ) * Qg := hCS
      _ ≤ T * Qg := mul_le_mul_of_nonneg_right hnT hQg0
      _ = Qg * T := mul_comm _ _
    rw [key]
    linarith

/-- `update` with an empty batch leaves the state unchanged. -/
lemma Normalizer.update_nil {d : ℕ} (nz : Normalizer d) : nz.update [] = nz := by
  have hm : ∀ j, (nz.update ([] : List (Fin d → ℚ))).running_mean j = nz.running_mean j := by
    intro j
    rw [Normalizer.update_mean_def0]
    simp
  have hv : ∀ j, (nz.update ([] : List (Fin d → ℚ))).running_variance j =
      nz.running_variance j := by
    intro j
    rw [Normalizer.update_var_def0]
    simp
  exact Normalizer.ext rfl (funext hm) (funext hv)

/-- One `update` with `l1 ++ l2` equals `update l1` followed by `update l2`:
the update is exactly Chan's statistics merge, which composes. -/
lemma Normalizer.update_append {d : ℕ} (nz : Normalizer d)
    (l1 l2 : List (Fin d → ℚ)) :
    nz.update (l1 ++ l2) = (nz.update l1).update l2 := by
  rcases Nat.eq_zero_or_pos (nz.normalization_steps + l1.length + l2.length) with h0 | hpos
  · have h1 : l1 = [] := List.length_eq_zero.mp (by omega)
    have h2 : l2 = [] := List.length_eq_zero.mp (by omega)
    subst h1
    subst h2
    simp [Normalizer.update_nil]
  · have hT : ((nz.normalization_steps : ℚ) + l1.length + l2.length) ≠ 0 := by
      have : (0 : ℚ) < (nz.normalization_steps : ℚ) + l1.length + l2.length := by
        exact_mod_cast hpos
      linarith
    have hmean : ∀ j, (nz.update (l1 ++ l2)).running_mean j =
        ((nz.update l1).update l2).running_mean j := by
      intro j
      have hA := Normalizer.update_mean_mul nz (l1 ++ l2) j
      have hB1 := Normalizer.update_mean_mul nz l1 j
      have hB2 := Normalizer.update_mean_mul (nz.update l1) l2 j
      simp only [Normalizer.update_steps, List.length_append, List.map_append,
        List.sum_append] at hA hB2
      push_cast at hA hB1 hB2
      apply mul_left_cancel₀ hT
      linear_combination hA - hB2 - hB1
    have hvar : ∀ j, (nz.update (l1 ++ l2)).running_variance j =
        ((nz.update l1).update l2).running_variance j := by
      intro j
      have hRA := Normalizer.update_R nz (l1 ++ l2) j
      have hRB1 := Normalizer.update_R nz l1 j
      have hRB2 := Normalizer.update_R (nz.update l1) l2 j
      simp only [Normalizer.update_steps, List.length_append, List.map_append,
        List.sum_append] at hRA hRB2
      push_cast at hRA hRB1 hRB2
      have hmj := hmean j
      linear_combination hRA - hRB2 - hRB1 -
        (((nz.normalization_steps : ℚ) + l1.length + l2.length) *
          ((nz.update (l1 ++ l2)).running_mean j +
            ((nz.update l1).update l2).running_mean j)) * hmj
    have hsteps : (nz.update (l1 ++ l2)).normalization_steps =
        ((nz.update l1).update l2).normalization_steps := by
      simp only [Normalizer.update_steps, List.length_append]
      omega
    exact Normalizer.ext hsteps (funext hmean) (funext hvar)

lemma le_clamp_of (x : ℝ) : -5 ≤ clamp x (-5) 5 :=
  le_min (le_max_right x (-5)) (by norm_num)

lemma clamp_le_of (x : ℝ) : clamp x (-5) 5 ≤ 5 := min_le_right _ _

/-- If every element of a list satisfies `P` and the default does too, then so
does `getD` at any index. -/
lemma getD_prop {α : Type _} (P : α → Prop) (dflt : α) :
    ∀ (l : List α) (i : ℕ), (∀ y ∈ l, P y) → P dflt → P (l.getD i dflt)
  | [], _, _, hd => by simpa [List.getD] using hd
  | a :: _, 0, h, _ => by simpa using h a (by simp)
  | _ :: t, i + 1, h, hd => by
    simpa using getD_prop P dflt t i (fun y hy => h y (by simp [hy])) hd

/-- C1: for every `Normalizer` state and every batch of `n` samples (`n` = the
batch's first-axis size), `update` computes `newTotal = stepCount + n`,
`newMean = mean + sum((batch - mean) / newTotal, axis=0)` and `newSumSqDev =
sumSqDev + sum((batch - newMean) * (batch - mean), axis=0)`, and afterwards the
three fields hold exactly these values (the batched Welford update; in the pure
embedding the post-state is a single record, so no intermediate state is
observable). -/
theorem update_welford_formulas {d : ℕ} (nz : Normalizer d)
    (batch : List (Fin d → ℚ)) :
    (nz.update batch).normalization_steps = nz.normalization_steps + batch.length ∧
    (∀ j, (nz.update batch).running_mean j =
      nz.running_mean j + (batch.map fun x =>
        (x j - nz.running_mean j) /
          ((nz.normalization_steps + batch.length : ℕ) : ℚ)).sum) ∧
    (∀ j, (nz.update batch).running_variance j =
      nz.running_variance j + (batch.map fun x =>
        (x j - (nz.running_mean j + (batch.map fun y =>
            (y j - nz.running_mean j) /
              ((nz.normalization_steps + batch.length : ℕ) : ℚ)).sum)) *
        (x j - nz.running_mean j)).sum) := by
  refine ⟨rfl, fun j => Normalizer.update_mean_def nz batch j, fun j => ?_⟩
  rw [Normalizer.update_var_def nz batch j]
  simp only [Normalizer.update_mean_def]

/-- C2: `forward` (normalize) returns, elementwise,
`clamp((x - mean) / sqrt(sumSqDev / stepCount), -5, 5)`; it is a pure function
of the state (the state record is untouched), and every element of its output
lies within `[-5, 5]` (also at out-of-range indices, where `getD` yields the
zero default). -/
theorem forward_formula_and_bounds {d : ℕ} (nz : Normalizer d)
    (inputs : List (Fin d → ℚ)) :
    nz.forward inputs = (inputs.map fun x j =>
      clamp (((x j : ℝ) - (nz.running_mean j : ℝ)) /
          Real.sqrt ((nz.running_variance j : ℝ) / (nz.normalization_steps : ℝ)))
        (-5) 5) ∧
    ∀ (i : ℕ) (j : Fin d),
      -5 ≤ (nz.forward inputs).getD i (fun _ => 0) j ∧
      (nz.forward inputs).getD i (fun _ => 0) j ≤ 5 := by
  refine ⟨rfl, fun i j => ?_⟩
  refine getD_prop (fun y : Fin d → ℝ => -5 ≤ y j ∧ y j ≤ 5) (fun _ => 0)
    (nz.forward inputs) i ?_ (by norm_num)
  intro y hy
  simp only [Normalizer.forward, List.mem_map] at hy
  obtain ⟨x, -, rfl⟩ := hy
  exact ⟨le_clamp_of _, clamp_le_of _⟩

/-- C3: the invariant holds in the initial state (stepCount 1, mean zero,
sumSqDev one) and is preserved by every `update`: the step count stays ≥ 1 and
never decreases, and every `running_variance` entry stays ≥ 0 — the quantity
added to each entry is nonnegative, with no clamping anywhere. -/
theorem normalizer_invariant (d : ℕ) :
    (1 ≤ (Normalizer.init d).normalization_steps ∧
      (∀ j, (Normalizer.init d).running_mean j = 0) ∧
      (∀ j, (Normalizer.init d).running_variance j = 1)) ∧
    ∀ (nz : Normalizer d) (l : List (Fin d → ℚ)),
      1 ≤ nz.normalization_steps → (∀ j, 0 ≤ nz.running_variance j) →
        (1 ≤ (nz.update l).normalization_steps ∧
          nz.normalization_steps ≤ (nz.update l).normalization_steps ∧
          ∀ j, 0 ≤ (nz.update l).running_variance j ∧
            nz.running_variance j ≤ (nz.update l).running_variance j) := by
  refine ⟨⟨le_refl 1, fun j => rfl, fun j => rfl⟩, ?_⟩
  intro nz l hsteps hvar
  refine ⟨?_, ?_, fun j => ?_⟩
  · rw [Normalizer.update_steps]
    omega
  · rw [Normalizer.update_steps]
    omega
  · have hmono := Normalizer.update_var_mono nz l j
    exact ⟨le_trans (hvar j) hmono, hmono⟩

/-- C3 witness: the invariant preservation applied to the initial state of
dimension 1 and the concrete one-sample batch `[2]`. -/
theorem normalizer_invariant_witness :
    1 ≤ ((Normalizer.init 1).update [fun _ => 2]).normalization_steps ∧
    0 ≤ ((Normalizer.init 1).update [fun _ => 2]).running_variance 0 := by
  have h := (normalizer_invariant 1).2 (Normalizer.init 1) [fun _ => 2]
    (le_refl 1) (fun j => by norm_num [Normalizer.init])
  exact ⟨h.1, (h.2.2 0).1⟩

/-- C4: for every starting state and every sequence of samples, one `update`
call with the whole batch yields exactly the same state — in particular the
same `mean` and the same derived variance `sumSqDev / stepCount` — as feeding
the same samples, in order, across any number of sequential `update` calls
(exactly, in the exact arithmetic of the embedding). -/
theorem update_single_eq_split {d : ℕ} (nz : Normalizer d)
    (batches : List (List (Fin d → ℚ))) :
    nz.update batches.flatten = batches.foldl (fun s b => s.update b) nz ∧
    (∀ j, (nz.update batches.flatten).running_mean j =
      (batches.foldl (fun s b => s.update b) nz).running_mean j) ∧
    (∀ j, (nz.update batches.flatten).running_variance j /
        ((nz.update batches.flatten).normalization_steps : ℚ) =
      (batches.foldl (fun s b => s.update b) nz).running_variance j /
        ((batches.foldl (fun s b => s.update b) nz).normalization_steps : ℚ)) := by
  have h : nz.update batches.flatten = batches.foldl (fun s b => s.update b) nz := by
    induction batches generalizing nz with
    | nil => simpa using Normalizer.update_nil nz
    | cons b bs ih =>
      simp only [List.flatten_cons, List.foldl_cons]
      rw [Normalizer.update_append, ih]
  exact ⟨h, fun j => by rw [h], fun j => by rw [h]⟩

/-- C10: calling `update` with an empty batch (first-axis size 0) is a no-op:
`normalization_steps`, `running_mean` and `running_variance` are all left
unchanged (the empty-axis sums contribute zero and the new total equals the old
step count). -/
theorem update_empty_batch_noop {d : ℕ} (nz : Normalizer d) :
    nz.update [] = nz :=
  Normalizer.update_nil nz
